import Mathlib

/-!
Verification development for the dkn-compute-launcher repository.

The Go sources are shallowly embedded: pure string manipulation is modelled
over `List Char`, the stateful supervisor loop of `main.go` is modelled as an
explicit state-transition function emitting an event trace, and every
fallible operation returns `Except`/`Option` or takes its outcome as an
explicit oracle parameter.  Each definition's doc comment names the source
function (file and lines) it embeds.  A few functions are called by
`main.go` but their bodies are not part of the source tree (they live in the
third-party godotenv library or in a revision of `utils/compute.go` other
than the one shipped); those are modelled from the specification and are
marked `Modelled from the spec:`.
-/

/-- Go strings are modelled as lists of characters so that splitting and
joining admit structural induction. -/
abbrev Str := List Char

/-! ## Environment store (src/utils/env.go) -/

/-- Embeds `RemoveEmptyEnvVars` (src/utils/env.go lines 206-216): delete
every key whose value is the empty string.  The Go map is modelled as an
association list with pairwise-distinct keys. -/
def RemoveEmptyEnvVars (envvars : List (Str × Str)) : List (Str × Str) :=
  envvars.filter (fun kv => kv.2 != [])

/-- Embeds the serialization loop of `DumpEnvVarsToFile`
(src/utils/env.go lines 219-240): each pair is written as the line
`KEY=value` followed by a newline, without quotes. -/
def DumpEnvVarsToFile (envvars : List (Str × Str)) : Str :=
  (envvars.map (fun kv => kv.1 ++ '=' :: kv.2 ++ ['\n'])).flatten

/-- Splitting a character list at every occurrence of a separator character,
mirroring Go's `strings.Split`.  The result is always non-empty. -/
def splitOnChar (c : Char) : Str → List Str
  | [] => [[]]
  | x :: xs =>
    match splitOnChar c xs with
    | [] => [[]]
    | y :: ys => if x = c then [] :: y :: ys else (x :: y) :: ys

/-- Joining with a separator character, the inverse of `splitOnChar`. -/
def joinWith (c : Char) : List Str → Str
  | [] => []
  | [s] => s
  | s :: rest => s ++ c :: joinWith c rest

/-- One line of a dotenv file: the text before the first `=` is the key, the
rest of the line is the value; a line without `=` yields nothing. -/
def parseEnvLine (l : Str) : Option (Str × Str) :=
  match splitOnChar '=' l with
  | [] => none
  | [_] => none
  | k :: rest => some (k, joinWith '=' rest)

/-- Modelled from the spec: `LoadEnv` (src/utils/env.go lines 48-68)
delegates parsing to the third-party godotenv library, whose code is not in
this repository; spec section 6 fixes the format as flat `KEY=value` lines,
UTF-8 text, no quoting, no nesting, no escaping.  The file content is split
into lines and each line contributes its key/value pair. -/
def LoadEnvContent (s : Str) : List (Str × Str) :=
  (splitOnChar '\n' s).filterMap parseEnvLine

/-- Persisting a configuration exactly as `main.go` lines 283-286 do
(`RemoveEmptyEnvVars` then `DumpEnvVarsToFile`), followed by re-loading the
produced file content. -/
def persistThenLoad (envvars : List (Str × Str)) : List (Str × Str) :=
  LoadEnvContent (DumpEnvVarsToFile (RemoveEmptyEnvVars envvars))

theorem splitOnChar_ne_nil (c : Char) (s : Str) : splitOnChar c s ≠ [] := by
  cases s with
  | nil => simp [splitOnChar]
  | cons x xs =>
    simp only [splitOnChar]
    cases h : splitOnChar c xs with
    | nil => simp
    | cons y ys =>
      by_cases hx : x = c <;> simp [hx]

theorem splitOnChar_not_mem {c : Char} {s : Str} (h : c ∉ s) :
    splitOnChar c s = [s] := by
  induction s with
  | nil => rfl
  | cons x xs ih =>
    simp only [List.mem_cons, not_or] at h
    have hx : x ≠ c := fun hh => h.1 hh.symm
    simp only [splitOnChar, ih h.2, if_neg hx]

theorem splitOnChar_append_cons {c : Char} {s : Str} (t : Str) (h : c ∉ s) :
    splitOnChar c (s ++ c :: t) = s :: splitOnChar c t := by
  induction s with
  | nil =>
    simp only [List.nil_append, splitOnChar]
    cases ht : splitOnChar c t with
    | nil => exact absurd ht (splitOnChar_ne_nil c t)
    | cons y ys => simp
  | cons x xs ih =>
    simp only [List.mem_cons, not_or] at h
    have hx : x ≠ c := fun hh => h.1 hh.symm
    simp only [List.cons_append, splitOnChar, List.append_eq, ih h.2,
      if_neg hx]

theorem joinWith_splitOnChar (c : Char) (s : Str) :
    joinWith c (splitOnChar c s) = s := by
  induction s with
  | nil => rfl
  | cons x xs ih =>
    simp only [splitOnChar]
    cases h : splitOnChar c xs with
    | nil => exact absurd h (splitOnChar_ne_nil c xs)
    | cons y ys =>
      rw [h] at ih
      by_cases hx : x = c
      · subst hx
        simp only [if_pos rfl, joinWith]
        cases ys with
        | nil =>
          simp only [joinWith] at ih ⊢
          simp [ih]
        | cons z zs =>
          simp only [joinWith] at ih ⊢
          simp [ih]
      · simp only [if_neg hx]
        cases ys with
        | nil =>
          simp only [joinWith] at ih ⊢
          simp [ih]
        | cons z zs =>
          simp only [joinWith] at ih ⊢
          simp [ih]

theorem parseEnvLine_mk {k v : Str} (hk : '=' ∉ k) :
    parseEnvLine (k ++ '=' :: v) = some (k, v) := by
  unfold parseEnvLine
  rw [splitOnChar_append_cons v hk]
  cases h : splitOnChar '=' v with
  | nil => exact absurd h (splitOnChar_ne_nil '=' v)
  | cons y ys =>
    have hj : joinWith '=' (y :: ys) = v := by
      rw [← h]; exact joinWith_splitOnChar '=' v
    simp [hj]

theorem loadEnv_dump (kvs : List (Str × Str))
    (h : ∀ kv ∈ kvs, '=' ∉ kv.1 ∧ '\n' ∉ kv.1 ∧ '\n' ∉ kv.2) :
    LoadEnvContent (DumpEnvVarsToFile kvs) = kvs := by
  induction kvs with
  | nil => rfl
  | cons kv rest ih =>
    have hkv := h kv (List.mem_cons_self kv rest)
    have hrest : ∀ p ∈ rest, '=' ∉ p.1 ∧ '\n' ∉ p.1 ∧ '\n' ∉ p.2 :=
      fun p hp => h p (List.mem_cons_of_mem kv hp)
    have hline : '\n' ∉ kv.1 ++ '=' :: kv.2 := by
      intro hm
      rcases List.mem_append.mp hm with h1 | h2
      · exact hkv.2.1 h1
      · rcases List.mem_cons.mp h2 with h3 | h4
        · exact absurd h3 (by decide)
        · exact hkv.2.2 h4
    have hsplit : splitOnChar '\n' (DumpEnvVarsToFile (kv :: rest)) =
        (kv.1 ++ '=' :: kv.2) :: splitOnChar '\n' (DumpEnvVarsToFile rest) := by
      have : DumpEnvVarsToFile (kv :: rest) =
          (kv.1 ++ '=' :: kv.2) ++ '\n' :: DumpEnvVarsToFile rest := by
        simp [DumpEnvVarsToFile]
      rw [this]
      exact splitOnChar_append_cons _ hline
    unfold LoadEnvContent
    rw [hsplit]
    have hparse : parseEnvLine (kv.1 ++ '=' :: kv.2) = some (kv.1, kv.2) :=
      parseEnvLine_mk hkv.1
    simp only [List.filterMap_cons, hparse]
    have := ih hrest
    unfold LoadEnvContent at this
    rw [this]

theorem mem_removeEmpty (kvs : List (Str × Str)) (p : Str × Str) :
    p ∈ RemoveEmptyEnvVars kvs ↔ p ∈ kvs ∧ p.2 ≠ [] := by
  unfold RemoveEmptyEnvVars
  rw [List.mem_filter]
  constructor
  · intro ⟨h1, h2⟩
    exact ⟨h1, by simpa using h2⟩
  · intro ⟨h1, h2⟩
    exact ⟨h1, by simpa using h2⟩

/-- **C9.** Persisting (dropping empty values, then writing `KEY=value`
lines) and re-loading a configuration whose keys are distinct and whose
keys/values are representable as unquoted lines returns exactly the
non-empty-valued pairs; hence it is the identity when every value is
non-empty, and a key explicitly set to the empty string does not survive
the round trip. -/
theorem env_persist_load_roundtrip (kvs : List (Str × Str))
    (hrep : ∀ kv ∈ kvs, '=' ∉ kv.1 ∧ '\n' ∉ kv.1 ∧ '\n' ∉ kv.2)
    (hkeys : (kvs.map Prod.fst).Nodup) :
    persistThenLoad kvs = RemoveEmptyEnvVars kvs
    ∧ ((∀ kv ∈ kvs, kv.2 ≠ []) → persistThenLoad kvs = kvs)
    ∧ (∀ k : Str, (k, ([] : Str)) ∈ kvs →
        ∀ v : Str, (k, v) ∉ persistThenLoad kvs) := by
  have hfilter : ∀ kv ∈ RemoveEmptyEnvVars kvs,
      '=' ∉ kv.1 ∧ '\n' ∉ kv.1 ∧ '\n' ∉ kv.2 := by
    intro kv hkv
    exact hrep kv ((mem_removeEmpty kvs kv).mp hkv).1
  have hmain : persistThenLoad kvs = RemoveEmptyEnvVars kvs :=
    loadEnv_dump (RemoveEmptyEnvVars kvs) hfilter
  refine ⟨hmain, ?_, ?_⟩
  · intro hne
    rw [hmain]
    unfold RemoveEmptyEnvVars
    apply List.filter_eq_self.mpr
    intro kv hkv
    simpa using hne kv hkv
  · intro k hk v hv
    rw [hmain] at hv
    have hv' := (mem_removeEmpty kvs (k, v)).mp hv
    have hvne : v ≠ [] := hv'.2
    -- distinct keys force the value of k in kvs to be unique
    have : v = ([] : Str) := by
      have h1 : (k, v) ∈ kvs := hv'.1
      have h2 : (k, ([] : Str)) ∈ kvs := hk
      -- from Nodup of the mapped keys, the two pairs coincide
      have := List.inj_on_of_nodup_map hkeys
      have heq := this h1 h2 rfl
      exact congrArg Prod.snd heq
    exact hvne this

/-- Witness for `env_persist_load_roundtrip` at a concrete two-entry
configuration in which the key `B` carries the empty value. -/
theorem env_persist_load_roundtrip_witness :
    persistThenLoad [(['A'], ['1']), (['B'], [])] =
      RemoveEmptyEnvVars [(['A'], ['1']), (['B'], [])]
    ∧ ((∀ kv ∈ [(['A'], ['1']), (['B'], ([] : Str))], kv.2 ≠ []) →
        persistThenLoad [(['A'], ['1']), (['B'], [])] =
          [(['A'], ['1']), (['B'], [])])
    ∧ (∀ k : Str, (k, ([] : Str)) ∈ [(['A'], ['1']), (['B'], ([] : Str))] →
        ∀ v : Str, (k, v) ∉ persistThenLoad [(['A'], ['1']), (['B'], [])]) :=
  env_persist_load_roundtrip [(['A'], ['1']), (['B'], [])]
    (by decide) (by decide)

/-! ## Release resolver (src/utils/compute.go lines 30-141) -/

/-- Model of Go's `strings.HasSuffix s suf`, used by `GetComputeLatestTag`
to detect development tags. -/
def goHasSuffix (s suf : String) : Bool :=
  s.toList.reverse.take suf.toList.length == suf.toList.reverse

/-- A tag entry of the remote listing: `tag["name"].(string)` either yields
a string (`some`) or fails the type assertion (`none`, the entry lacks the
expected tag-name field). -/
abbrev TagEntry := Option String

/-- Embeds the iteration of the `previous_latest` branch of
`GetComputeLatestTag` (src/utils/compute.go lines 85-102): walk the listing
with the `latest_encountered` flag, skipping `-dev` tags throughout,
consuming the first non-dev tag silently and returning the second. -/
def prevLatestLoop : List TagEntry → Bool → Except String String
  | [], _ => .error "no valid tags found"
  | t :: rest, latest_encountered =>
    match t with
    | none => .error "failed to extract tag name"
    | some tagName =>
      if !goHasSuffix tagName "-dev" && !latest_encountered then
        prevLatestLoop rest true
      else if !goHasSuffix tagName "-dev" && latest_encountered then
        .ok tagName
      else
        prevLatestLoop rest latest_encountered

/-- Embeds `GetComputeLatestTag(false, false, true)` over an already-fetched
tag listing: `GetSortedTags` (src/utils/compute.go lines 115-141) rejects an
empty listing with `no tags found`, and the `previous_latest` branch then
runs `prevLatestLoop` with the flag initially unset. -/
def GetComputeLatestTagPrev (tags : List TagEntry) : Except String String :=
  if tags.isEmpty then .error "no tags found"
  else prevLatestLoop tags false

/-- The non-dev tags of a well-formed listing, in listing order. -/
def nonDevTags (names : List String) : List String :=
  names.filter (fun n => !goHasSuffix n "-dev")

theorem prevLatestLoop_ok (names : List String) (b : Bool) (v : String)
    (h : (nonDevTags names).get? (if b then 0 else 1) = some v) :
    prevLatestLoop (names.map some) b = .ok v := by
  induction names generalizing b with
  | nil => simp [nonDevTags] at h
  | cons n rest ih =>
    by_cases hdev : goHasSuffix n "-dev" = true
    · have hfilter : nonDevTags (n :: rest) = nonDevTags rest := by
        simp [nonDevTags, hdev]
      rw [hfilter] at h
      simpa [prevLatestLoop, hdev] using ih b h
    · have hdev' : goHasSuffix n "-dev" = false := by
        simpa using hdev
      have hfilter : nonDevTags (n :: rest) = n :: nonDevTags rest := by
        simp [nonDevTags, hdev']
      rw [hfilter] at h
      cases b with
      | false =>
        simp only [if_neg (by decide : ¬ (false : Bool) = true)] at h
        have h0 : (nonDevTags rest).get? 0 = some v := by simpa using h
        have := ih true (by simpa using h0)
        simpa [prevLatestLoop, hdev'] using this
      | true =>
        simp only [if_pos rfl] at h
        have hv : n = v := by simpa using h
        subst hv
        simp [prevLatestLoop, hdev']

theorem prevLatestLoop_malformed (pre : List String) (junk : List TagEntry)
    (b : Bool)
    (h : (nonDevTags pre).length + (if b then 1 else 0) ≤ 1) :
    prevLatestLoop (pre.map some ++ none :: junk) b =
      .error "failed to extract tag name" := by
  induction pre generalizing b with
  | nil => simp [prevLatestLoop]
  | cons n rest ih =>
    by_cases hdev : goHasSuffix n "-dev" = true
    · have hfilter : nonDevTags (n :: rest) = nonDevTags rest := by
        simp [nonDevTags, hdev]
      rw [hfilter] at h
      simpa [prevLatestLoop, hdev] using ih b h
    · have hdev' : goHasSuffix n "-dev" = false := by
        simpa using hdev
      have hfilter : nonDevTags (n :: rest) = n :: nonDevTags rest := by
        simp [nonDevTags, hdev']
      rw [hfilter] at h
      cases b with
      | false =>
        simp only [List.length_cons] at h
        have hrest : (nonDevTags rest).length + 1 ≤ 1 := by omega
        have := ih true (by simpa using hrest)
        simpa [prevLatestLoop, hdev'] using this
      | true =>
        exfalso
        simp at h

/-- **C6 (amended).** Over a listing in which every entry carries a string
name, the previous-stable resolution returns the first non-dev tag strictly
after the first non-dev tag (dev tags ignored throughout); the empty listing
is rejected with an error; and an entry lacking the tag-name field makes the
resolution fail exactly when it is reached, i.e. when at most one non-dev
tag precedes it. -/
theorem prev_stable_resolution (names : List String) (v : String)
    (hv : (nonDevTags names).get? 1 = some v)
    (pre : List String) (junk : List TagEntry)
    (hpre : (nonDevTags pre).length ≤ 1) :
    GetComputeLatestTagPrev (names.map some) = .ok v
    ∧ GetComputeLatestTagPrev [] = .error "no tags found"
    ∧ GetComputeLatestTagPrev (pre.map some ++ none :: junk) =
        .error "failed to extract tag name" := by
  refine ⟨?_, rfl, ?_⟩
  · have hne : names ≠ [] := by
      intro h
      rw [h] at hv
      simp [nonDevTags] at hv
    have hmap : (names.map some).isEmpty = false := by
      cases names with
      | nil => exact absurd rfl hne
      | cons a l => rfl
    unfold GetComputeLatestTagPrev
    rw [hmap]
    exact prevLatestLoop_ok names false v (by simpa using hv)
  · have hmap : ((pre.map some ++ none :: junk)).isEmpty = false := by
      cases pre with
      | nil => rfl
      | cons a l => rfl
    unfold GetComputeLatestTagPrev
    rw [hmap]
    exact prevLatestLoop_malformed pre junk false (by simpa using hpre)

/-- Witness for `prev_stable_resolution`: a listing with a dev tag in front
resolves to the second stable tag, and a malformed entry sitting right
after the single stable tag of another listing is reported as an error. -/
theorem prev_stable_resolution_witness :
    GetComputeLatestTagPrev
        [some "v0.3.0-dev", some "v0.2.9", some "v0.2.8", some "v0.2.7"] =
      .ok "v0.2.8"
    ∧ GetComputeLatestTagPrev [] = .error "no tags found"
    ∧ GetComputeLatestTagPrev [some "v0.2.9", none, some "v0.2.8"] =
        .error "failed to extract tag name" := by
  have := prev_stable_resolution
    ["v0.3.0-dev", "v0.2.9", "v0.2.8", "v0.2.7"] "v0.2.8" (by decide)
    ["v0.2.9"] [some "v0.2.8"] (by decide)
  simpa using this

/-- **C6, counterexample to the claim as stated.** A listing that does
contain an entry lacking the tag-name field is nonetheless resolved
successfully, because the malformed entry sits after the previous-stable
tag and is never examined: resolution does not fail with an error merely
because some entry lacks the field. -/
theorem prev_stable_malformed_after_result :
    ((none : TagEntry) ∈ [some "v2.0.0", some "v1.9.0", none])
    ∧ GetComputeLatestTagPrev [some "v2.0.0", some "v1.9.0", none] =
        .ok "v1.9.0" := by
  constructor
  · simp
  · rfl

/-! ## Liveness monitoring goroutine (src/main.go lines 345-360) -/

/-- Outcome of the monitoring goroutine of `main.go` lines 345-360. -/
inductive MonitorOutcome where
  | exited (code : Nat)
  | returned
  | looping
deriving DecidableEq

/-- Embeds the monitoring goroutine loop (src/main.go lines 345-360) over a
finite schedule of observations.  Each wake-up observes the pair
`(ctxDone, processRunning)`: if the cancellation context is observed done
the goroutine returns; otherwise, if the compute node is observed not
running, the launcher exits with code 0 (`ExitWithDelay(0)`); otherwise the
loop continues with the next observation. -/
def monitorRun : List (Bool × Bool) → MonitorOutcome
  | [] => .looping
  | (ctxDone, running) :: rest =>
    if ctxDone then .returned
    else if running then monitorRun rest
    else .exited 0

/-- **C2.** If cancellation is requested before the child is stopped for an
update — so that in the given interleaving every observation of a dead
child comes with the cancellation signal already observable — then the
monitoring loop never performs the crash-exit: the stop cannot make the
launcher exit from the liveness loop. -/
theorem monitor_cancel_no_crash_exit (obs : List (Bool × Bool))
    (h : ∀ p ∈ obs, p.2 = false → p.1 = true) :
    ∀ code : Nat, monitorRun obs ≠ .exited code := by
  induction obs with
  | nil => intro code; simp [monitorRun]
  | cons p rest ih =>
    intro code
    obtain ⟨ctxDone, running⟩ := p
    by_cases hc : ctxDone = true
    · simp [monitorRun, hc]
    · have hr : running = true := by
        by_contra hr
        have := h (ctxDone, running) (List.mem_cons_self _ _)
          (by simpa using hr)
        exact hc this
      have hrest : ∀ p ∈ rest, p.2 = false → p.1 = true :=
        fun q hq => h q (List.mem_cons_of_mem _ hq)
      have hc' : ctxDone = false := by simpa using hc
      simpa [monitorRun, hc', hr] using ih hrest code

/-- Witness for `monitor_cancel_no_crash_exit`: an interleaving where the
child is observed alive once and then the cancellation signal arrives
together with the (intentionally) dead child. -/
theorem monitor_cancel_no_crash_exit_witness :
    monitorRun [(false, true), (true, false)] ≠ .exited 0 :=
  monitor_cancel_no_crash_exit [(false, true), (true, false)]
    (by decide) 0

/-! ## StopProcess (src/utils/process_unix.go lines 28-67) -/

/-- The graceful-termination grace window of `StopProcess`: the 10-second
timeout divided by the 500-millisecond ticker gives 20 liveness probes
before escalation to SIGKILL. -/
def graceTicks : Nat := 20

/-- Embeds the `select` wait loop of `StopProcess`
(src/utils/process_unix.go lines 41-66).  `running t` tells whether the
process is still alive at the t-th ticker fire; when the fuel (the
remaining ticks of the grace window) is exhausted the timeout branch fires:
SIGKILL is sent (`killOk` is its outcome), and after the one-second sleep
`stillAfterKill` tells whether the process survived even SIGKILL.  Every
escalation branch returns a non-nil error. -/
def stopWait (running : Nat → Bool) (killOk stillAfterKill : Bool) :
    Nat → Nat → Except String Unit
  | 0, _ =>
    if killOk = false then .error "could not kill process"
    else if stillAfterKill then
      .error "process did not terminate even after SIGKILL"
    else .error "process did not terminate gracefully; sent SIGKILL"
  | fuel + 1, t =>
    if running t = false then .ok ()
    else stopWait running killOk stillAfterKill fuel (t + 1)

/-- Embeds `StopProcess` (src/utils/process_unix.go lines 28-67): find the
process (`findOk`), send SIGTERM to the process group (`sigtermOk`), then
wait within the grace window. -/
def StopProcess (findOk sigtermOk : Bool) (running : Nat → Bool)
    (killOk stillAfterKill : Bool) : Except String Unit :=
  if findOk = false then .error "could not find process"
  else if sigtermOk = false then .error "could not send SIGTERM to process"
  else stopWait running killOk stillAfterKill graceTicks 0

theorem stopWait_ok (running : Nat → Bool) (killOk stillAfterKill : Bool)
    (fuel t i : Nat) (hi : i < fuel) (hdead : running (t + i) = false) :
    stopWait running killOk stillAfterKill fuel t = .ok () := by
  induction fuel generalizing t i with
  | zero => omega
  | succ fuel ih =>
    by_cases h0 : running t = false
    · simp [stopWait, h0]
    · have hi0 : i ≠ 0 := by
        intro h
        rw [h] at hdead
        simp at hdead
        exact h0 (by simpa using hdead)
      obtain ⟨j, rfl⟩ : ∃ j, i = j + 1 := ⟨i - 1, by omega⟩
      have : running (t + 1 + j) = false := by
        have : t + (j + 1) = t + 1 + j := by omega
        rwa [this] at hdead
      have := ih (t + 1) j (by omega) this
      simp only [stopWait]
      rw [if_neg (by simpa using h0)]
      exact this

/-! ## Foreground supervisor update loop (src/main.go lines 319-413) -/

/-- Observable actions of the foreground supervisor, in the order
`main.go` performs them. -/
inductive Event where
  | downloadAttempt (version file : String)
  | logWarning
  | cancelMonitoring
  | stopChild
  | deleteOld (file : String)
  | renameNew (fromFile toFile : String)
  | persistEnv
  | exitLauncher (code : Nat)
  | restartChild
  | logNoUpdate
deriving DecidableEq

/-- The supervisor-visible system state: the files of the working directory
(name and whether the file has execute permission), whether the child
compute node is running, whether the monitoring goroutine is active,
the recorded `DKN_COMPUTE_VERSION`, and whether the launcher has exited. -/
structure SupState where
  files : List (String × Bool)
  childRunning : Bool
  monitoringActive : Bool
  envVersion : String
  exitedWith : Option Nat
deriving DecidableEq

/-- Remove a file entry, as `DeleteFile` (src/utils/cmd.go lines 354-364)
removes the old binary. -/
def removeFile : List (String × Bool) → String → List (String × Bool)
  | [], _ => []
  | f :: rest, name =>
    if f.1 == name then removeFile rest name
    else f :: removeFile rest name

/-- Create or overwrite a file entry. -/
def setFile (files : List (String × Bool)) (name : String) (exec : Bool) :
    List (String × Bool) :=
  (name, exec) :: removeFile files name

/-- Look up a file: `some e` when the file exists with execute bit `e`. -/
def lookupFile : List (String × Bool) → String → Option Bool
  | [], _ => none
  | f :: rest, name =>
    if f.1 == name then some f.2 else lookupFile rest name

/-- Rename a file keeping its permissions, as `RenameFile`
(src/utils/cmd.go lines 340-351) renames the temporary binary. -/
def renameFileEntry (files : List (String × Bool)) (a b : String) :
    List (String × Bool) :=
  match lookupFile files a with
  | some e => setFile (removeFile files a) b e
  | none => files

/-- Outcomes of the effectful steps of one update tick, provided as an
oracle: the tag the resolver reports, whether the temporary download
succeeds (and, if it fails, whether a partial non-executable temp file is
left behind), and whether stop, delete and rename succeed. -/
structure UpdateOracle where
  resolvedVersion : String
  downloadOk : Bool
  failLeavesPartial : Bool
  stopOk : Bool
  deleteOk : Bool
  renameOk : Bool
  devMode : Bool
deriving DecidableEq

/-- Modelled from the spec: `IsNewVersionAvaliable` is called by `main.go`
line 367 but its body is not in the source tree.  Spec section 4.1 says the
update-check loop asks the Release Resolver for the newest version tag and
compares it to the version recorded in Configuration, updating exactly when
they differ; the function returns the availability flag and the new tag. -/
def IsNewVersionAvaliable (resolved current : String) : Bool × String :=
  (resolved != current, resolved)

/-- Modelled from the spec: the update-path call
`DownloadLatestComputeBinary(newVersion, working_dir, newBinaryTempName,
false)` of `main.go` line 371 takes a fourth boolean that the
`utils/compute.go` revision in the tree does not have.  Spec section 4.1
step 1 says the new binary is downloaded under a temporary name, without
granting it execute permission yet and without disturbing the currently
running child; on failure at most a partial, non-executable temporary file
is left. -/
def downloadTempBinary (s : SupState) (tempName : String)
    (ok leavesPartial : Bool) : SupState :=
  if ok then { s with files := setFile s.files tempName false }
  else if leavesPartial then { s with files := setFile s.files tempName false }
  else s

/-- Embeds the body of the hourly update tick of the foreground loop
(src/main.go lines 363-412) together with the restart performed by the
enclosing loop (lines 330-344): check for a new version; on a failed
download log a warning and keep the current state; on success cancel the
monitoring goroutine, stop the child (fatal exit 1 on error), delete the
old binary (fatal), rename the temporary binary to the canonical name
(fatal), record the new version, persist the configuration (a dump failure
is only logged), and restart the child with a fresh monitoring goroutine. -/
def updateTick (o : UpdateOracle) (binaryName : String) (s : SupState) :
    SupState × List Event :=
  let avail := IsNewVersionAvaliable o.resolvedVersion s.envVersion
  if avail.1 then
    let newVersion := avail.2
    let tempName := "temp-" ++ binaryName
    let s1 := downloadTempBinary s tempName o.downloadOk o.failLeavesPartial
    if o.downloadOk = false then
      (s1, [.downloadAttempt newVersion tempName, .logWarning])
    else
      let s2 := { s1 with monitoringActive := false }
      if o.stopOk = false then
        ({ s2 with exitedWith := some 1 },
         [.downloadAttempt newVersion tempName, .cancelMonitoring,
          .stopChild, .exitLauncher 1])
      else
        let s3 := { s2 with childRunning := false }
        if o.deleteOk = false then
          ({ s3 with exitedWith := some 1 },
           [.downloadAttempt newVersion tempName, .cancelMonitoring,
            .stopChild, .deleteOld binaryName, .exitLauncher 1])
        else
          let s4 := { s3 with files := removeFile s3.files binaryName }
          if o.renameOk = false then
            ({ s4 with exitedWith := some 1 },
             [.downloadAttempt newVersion tempName, .cancelMonitoring,
              .stopChild, .deleteOld binaryName,
              .renameNew tempName binaryName, .exitLauncher 1])
          else
            let s5 := { s4 with
              files := renameFileEntry s4.files tempName binaryName }
            let s6 := { s5 with envVersion := newVersion }
            let s7 :=
              { s6 with childRunning := true, monitoringActive := true }
            (s7, [.downloadAttempt newVersion tempName, .cancelMonitoring,
              .stopChild, .deleteOld binaryName,
              .renameNew tempName binaryName, .persistEnv, .restartChild])
  else
    (s, if o.devMode then [.logNoUpdate] else [])

theorem lookupFile_setFile_self (files : List (String × Bool))
    (n : String) (e : Bool) : lookupFile (setFile files n e) n = some e := by
  simp [lookupFile, setFile]

theorem lookupFile_removeFile_ne (files : List (String × Bool))
    (n m : String) (h : m ≠ n) :
    lookupFile (removeFile files n) m = lookupFile files m := by
  induction files with
  | nil => rfl
  | cons f rest ih =>
    cases h1 : (f.1 == n) with
    | true =>
      have hfn : f.1 = n := by simpa using h1
      have h2 : (f.1 == m) = false := by
        rw [hfn]
        simp only [beq_eq_false_iff_ne]
        exact fun hh => h hh.symm
      have lhs : removeFile (f :: rest) n = removeFile rest n := by
        simp [removeFile, h1]
      have rhs : lookupFile (f :: rest) m = lookupFile rest m := by
        simp [lookupFile, h2]
      rw [lhs, rhs]
      exact ih
    | false =>
      have lhs : removeFile (f :: rest) n = f :: removeFile rest n := by
        simp [removeFile, h1]
      rw [lhs]
      cases h2 : (f.1 == m) with
      | true =>
        have l2 : lookupFile (f :: removeFile rest n) m = some f.2 := by
          simp [lookupFile, h2]
        have r2 : lookupFile (f :: rest) m = some f.2 := by
          simp [lookupFile, h2]
        rw [l2, r2]
      | false =>
        have l2 : lookupFile (f :: removeFile rest n) m =
            lookupFile (removeFile rest n) m := by
          simp [lookupFile, h2]
        have r2 : lookupFile (f :: rest) m = lookupFile rest m := by
          simp [lookupFile, h2]
        rw [l2, r2]
        exact ih

theorem lookupFile_setFile_ne (files : List (String × Bool))
    (n m : String) (e : Bool) (h : m ≠ n) :
    lookupFile (setFile files n e) m = lookupFile files m := by
  have h2 : ((n : String) == m) = false := by
    simp only [beq_eq_false_iff_ne]
    exact fun hh => h hh.symm
  have l1 : lookupFile ((n, e) :: removeFile files n) m =
      lookupFile (removeFile files n) m := by
    simp [lookupFile, h2]
  rw [setFile, l1]
  exact lookupFile_removeFile_ne files n m h

theorem temp_name_ne (b : String) : "temp-" ++ b ≠ b := by
  intro h
  have hlen := congrArg String.length h
  rw [String.length_append] at hlen
  have h5 : ("temp-" : String).length = 5 := rfl
  omega

/-- **C1.** On an hourly tick where the resolver reports a tag different
from the recorded `DKN_COMPUTE_VERSION` and the temporary download, the
stop, the delete and the rename all succeed, the supervisor emits exactly
one download (to the temporary name), one monitoring cancellation, one
stop, one delete of the old binary, one rename of the temporary binary to
the canonical name and one configuration persist, in exactly that order,
followed by the restart; the post-state has the child running and a fresh
monitoring task, with the new version recorded. -/
theorem update_tick_sequence (o : UpdateOracle) (b : String) (s : SupState)
    (hver : o.resolvedVersion ≠ s.envVersion)
    (hdl : o.downloadOk = true) (hstop : o.stopOk = true)
    (hdel : o.deleteOk = true) (hren : o.renameOk = true) :
    (updateTick o b s).2 =
      [.downloadAttempt o.resolvedVersion ("temp-" ++ b), .cancelMonitoring,
       .stopChild, .deleteOld b, .renameNew ("temp-" ++ b) b, .persistEnv,
       .restartChild]
    ∧ (updateTick o b s).1.childRunning = true
    ∧ (updateTick o b s).1.monitoringActive = true
    ∧ (updateTick o b s).1.envVersion = o.resolvedVersion := by
  simp [updateTick, IsNewVersionAvaliable, bne_iff_ne, hver, hdl, hstop,
    hdel, hren]

/-- Witness for `update_tick_sequence` at a concrete oracle and state. -/
theorem update_tick_sequence_witness :
    (updateTick
      ⟨"v0.2.5", true, false, true, true, true, false⟩ "dkn_compute"
      ⟨[("dkn_compute", true)], true, true, "v0.2.4", none⟩).2 =
      [.downloadAttempt "v0.2.5" ("temp-" ++ "dkn_compute"),
       .cancelMonitoring, .stopChild, .deleteOld "dkn_compute",
       .renameNew ("temp-" ++ "dkn_compute") "dkn_compute", .persistEnv,
       .restartChild]
    ∧ (updateTick
      ⟨"v0.2.5", true, false, true, true, true, false⟩ "dkn_compute"
      ⟨[("dkn_compute", true)], true, true, "v0.2.4", none⟩).1.childRunning
        = true
    ∧ (updateTick
      ⟨"v0.2.5", true, false, true, true, true, false⟩ "dkn_compute"
      ⟨[("dkn_compute", true)], true, true, "v0.2.4", none⟩).1.monitoringActive
        = true
    ∧ (updateTick
      ⟨"v0.2.5", true, false, true, true, true, false⟩ "dkn_compute"
      ⟨[("dkn_compute", true)], true, true, "v0.2.4", none⟩).1.envVersion
        = "v0.2.5" :=
  update_tick_sequence _ _ _ (by decide) rfl rfl rfl rfl

/-- **C5.** The successful download of the new binary under the temporary
name, as modelled from the spec for the update path, leaves the child
running, gives the temporary file no execute permission, and touches no
other file, nor the monitoring task or the recorded version: the state
between the download step and the stop step still has the old child alive
and a non-executable temporary binary. -/
theorem download_step_frame (s : SupState) (tempName : String) (lp : Bool)
    (hchild : s.childRunning = true) :
    (downloadTempBinary s tempName true lp).childRunning = true
    ∧ lookupFile (downloadTempBinary s tempName true lp).files tempName =
        some false
    ∧ (∀ n, n ≠ tempName →
        lookupFile (downloadTempBinary s tempName true lp).files n =
          lookupFile s.files n)
    ∧ (downloadTempBinary s tempName true lp).monitoringActive =
        s.monitoringActive
    ∧ (downloadTempBinary s tempName true lp).envVersion = s.envVersion := by
  refine ⟨by simp [downloadTempBinary, hchild], ?_, ?_, ?_, ?_⟩
  · simp [downloadTempBinary, lookupFile_setFile_self]
  · intro n hn
    simp [downloadTempBinary, lookupFile_setFile_ne s.files tempName n false hn]
  · simp [downloadTempBinary]
  · simp [downloadTempBinary]

/-- Witness for `download_step_frame` at a concrete state. -/
theorem download_step_frame_witness :
    (downloadTempBinary
      ⟨[("dkn_compute", true)], true, true, "v0.2.4", none⟩
      "temp-dkn_compute" true false).childRunning = true
    ∧ lookupFile (downloadTempBinary
      ⟨[("dkn_compute", true)], true, true, "v0.2.4", none⟩
      "temp-dkn_compute" true false).files "temp-dkn_compute" = some false
    ∧ (∀ n, n ≠ "temp-dkn_compute" →
        lookupFile (downloadTempBinary
          ⟨[("dkn_compute", true)], true, true, "v0.2.4", none⟩
          "temp-dkn_compute" true false).files n =
          lookupFile [("dkn_compute", true)] n)
    ∧ (downloadTempBinary
      ⟨[("dkn_compute", true)], true, true, "v0.2.4", none⟩
      "temp-dkn_compute" true false).monitoringActive = true
    ∧ (downloadTempBinary
      ⟨[("dkn_compute", true)], true, true, "v0.2.4", none⟩
      "temp-dkn_compute" true false).envVersion = "v0.2.4" :=
  download_step_frame
    ⟨[("dkn_compute", true)], true, true, "v0.2.4", none⟩
    "temp-dkn_compute" false rfl

/-- **C8.** If the resolver reports a new version but the temporary
download fails, the tick emits exactly a download attempt and a warning:
the child keeps running, the monitoring task stays active, the live binary
and the recorded `DKN_COMPUTE_VERSION` are untouched, nothing is persisted
and the launcher does not exit — the old state is kept until the next tick. -/
theorem update_download_failure_recoverable (o : UpdateOracle) (b : String)
    (s : SupState)
    (hver : o.resolvedVersion ≠ s.envVersion)
    (hdl : o.downloadOk = false) :
    (updateTick o b s).2 =
      [.downloadAttempt o.resolvedVersion ("temp-" ++ b), .logWarning]
    ∧ (updateTick o b s).1.childRunning = s.childRunning
    ∧ (updateTick o b s).1.monitoringActive = s.monitoringActive
    ∧ (updateTick o b s).1.envVersion = s.envVersion
    ∧ (updateTick o b s).1.exitedWith = s.exitedWith
    ∧ lookupFile (updateTick o b s).1.files b = lookupFile s.files b := by
  have hbne : (o.resolvedVersion != s.envVersion) = true := by
    simpa [bne_iff_ne] using hver
  have hmain : updateTick o b s =
      (downloadTempBinary s ("temp-" ++ b) false o.failLeavesPartial,
       [.downloadAttempt o.resolvedVersion ("temp-" ++ b), .logWarning]) := by
    simp [updateTick, IsNewVersionAvaliable, hbne, hdl]
  have hne : b ≠ "temp-" ++ b := fun hh => temp_name_ne b hh.symm
  refine ⟨?_, ?_, ?_, ?_, ?_, ?_⟩ <;> rw [hmain]
  · by_cases hlp : o.failLeavesPartial = true <;>
      simp [downloadTempBinary, hlp]
  · by_cases hlp : o.failLeavesPartial = true <;>
      simp [downloadTempBinary, hlp]
  · by_cases hlp : o.failLeavesPartial = true <;>
      simp [downloadTempBinary, hlp]
  · by_cases hlp : o.failLeavesPartial = true <;>
      simp [downloadTempBinary, hlp]
  · by_cases hlp : o.failLeavesPartial = true <;>
      simp [downloadTempBinary, hlp,
        lookupFile_setFile_ne s.files ("temp-" ++ b) b false hne]

/-- Witness for `update_download_failure_recoverable` at a concrete oracle
and state (the failed download leaves a partial temporary file). -/
theorem update_download_failure_recoverable_witness :
    (updateTick
      ⟨"v0.2.5", false, true, true, true, true, false⟩ "dkn_compute"
      ⟨[("dkn_compute", true)], true, true, "v0.2.4", none⟩).2 =
      [.downloadAttempt "v0.2.5" ("temp-" ++ "dkn_compute"), .logWarning]
    ∧ (updateTick
      ⟨"v0.2.5", false, true, true, true, true, false⟩ "dkn_compute"
      ⟨[("dkn_compute", true)], true, true, "v0.2.4", none⟩).1.childRunning
        = true
    ∧ (updateTick
      ⟨"v0.2.5", false, true, true, true, true, false⟩ "dkn_compute"
      ⟨[("dkn_compute", true)], true, true, "v0.2.4", none⟩).1.monitoringActive
        = true
    ∧ (updateTick
      ⟨"v0.2.5", false, true, true, true, true, false⟩ "dkn_compute"
      ⟨[("dkn_compute", true)], true, true, "v0.2.4", none⟩).1.envVersion
        = "v0.2.4"
    ∧ (updateTick
      ⟨"v0.2.5", false, true, true, true, true, false⟩ "dkn_compute"
      ⟨[("dkn_compute", true)], true, true, "v0.2.4", none⟩).1.exitedWith
        = none
    ∧ lookupFile (updateTick
      ⟨"v0.2.5", false, true, true, true, true, false⟩ "dkn_compute"
      ⟨[("dkn_compute", true)], true, true, "v0.2.4", none⟩).1.files
        "dkn_compute" = lookupFile [("dkn_compute", true)] "dkn_compute" :=
  update_download_failure_recoverable _ _ _ (by decide) rfl

/-- **C3.** `StopProcess` returns a nil error whenever the child is
observed dead at some ticker fire inside the 10-second grace window after
the SIGTERM request; and in the update tick the mid-update stop is treated
as fatal — the supervisor exits with code 1 right after the stop — exactly
when `StopProcess` reported an error. -/
theorem stop_grace_window_and_fatality (running : Nat → Bool) (i : Nat)
    (hi : i < graceTicks) (hdead : running i = false)
    (killOk stillAfterKill : Bool)
    (o : UpdateOracle) (b : String) (s : SupState)
    (hver : o.resolvedVersion ≠ s.envVersion)
    (hdl : o.downloadOk = true) :
    StopProcess true true running killOk stillAfterKill = .ok ()
    ∧ (o.stopOk = false ↔ (updateTick o b s).2 =
        [.downloadAttempt o.resolvedVersion ("temp-" ++ b),
         .cancelMonitoring, .stopChild, .exitLauncher 1]) := by
  constructor
  · have hred : StopProcess true true running killOk stillAfterKill =
        stopWait running killOk stillAfterKill graceTicks 0 := by
      simp [StopProcess]
    rw [hred]
    exact stopWait_ok running killOk stillAfterKill graceTicks 0 i hi
      (by simpa using hdead)
  · constructor
    · intro hstop
      simp [updateTick, IsNewVersionAvaliable, bne_iff_ne, hver, hdl, hstop]
    · intro h
      by_contra hstop
      have hstop' : o.stopOk = true := by
        cases hval : o.stopOk with
        | false => exact absurd hval hstop
        | true => rfl
      by_cases hdel : o.deleteOk = true
      · by_cases hren : o.renameOk = true
        · simp [updateTick, IsNewVersionAvaliable, bne_iff_ne, hver, hdl,
            hstop', hdel, hren] at h
        · have hren' : o.renameOk = false := by simpa using hren
          simp [updateTick, IsNewVersionAvaliable, bne_iff_ne, hver, hdl,
            hstop', hdel, hren'] at h
      · have hdel' : o.deleteOk = false := by simpa using hdel
        simp [updateTick, IsNewVersionAvaliable, bne_iff_ne, hver, hdl,
          hstop', hdel'] at h

/-- Witness for `stop_grace_window_and_fatality`: a process that dies at
the first probe, and an oracle whose stop step fails. -/
theorem stop_grace_window_and_fatality_witness :
    StopProcess true true (fun _ => false) true false = .ok ()
    ∧ ((⟨"v0.2.5", true, false, false, true, true, false⟩ :
          UpdateOracle).stopOk = false ↔
        (updateTick
          ⟨"v0.2.5", true, false, false, true, true, false⟩ "dkn_compute"
          ⟨[("dkn_compute", true)], true, true, "v0.2.4", none⟩).2 =
        [.downloadAttempt "v0.2.5" ("temp-" ++ "dkn_compute"),
         .cancelMonitoring, .stopChild, .exitLauncher 1]) :=
  stop_grace_window_and_fatality (fun _ => false) 0 (by decide) rfl
    true false _ "dkn_compute"
    ⟨[("dkn_compute", true)], true, true, "v0.2.4", none⟩
    (by decide) rfl

/-! ## Binary installer (src/utils/compute.go lines 159-217, env.go 120-147) -/

/-- Platform-specific asset name built by `DownloadLatestComputeBinary`
(src/utils/compute.go lines 160-165). -/
def assetName (osName arch : String) : String :=
  "dkn-compute-binary-" ++ osName ++ "-" ++ arch ++
    (if osName == "windows" then ".exe" else "")

/-- Release-asset URL built by `DownloadLatestComputeBinary`
(src/utils/compute.go line 167). -/
def downloadUrl (version osName arch : String) : String :=
  "https://github.com/firstbatchxyz/dkn-compute-node/releases/download/" ++
    version ++ "/" ++ assetName osName arch

/-- Outcome of one `DownloadFile` call (src/utils/env.go lines 120-147):
the returned HTTP status code, and whether the call returned a non-nil
error. -/
structure HttpResult where
  status : Int
  failed : Bool
deriving DecidableEq

/-- The remote world an installation run interacts with: the result of the
first download, the previous-stable tag the resolver would report, the
result of the fallback download, and whether the `chmod +x` of
`PrepareComputeBinary` (src/utils/compute.go lines 208-217) succeeds. -/
structure InstallOracle where
  firstDownload : HttpResult
  prevTag : Except String String
  secondDownload : HttpResult
  chmodOk : Bool

/-- Steps the installer performs, in order. -/
inductive InstallEvent where
  | download (version : String)
  | resolvePreviousStable
  | grantExec
deriving DecidableEq

/-- Embeds `DownloadLatestComputeBinary` (src/utils/compute.go lines
159-198): download the asset of the requested version; if that download
fails with status 404, resolve the previous-stable tag and download that
version instead (a failure of the resolver or of this single fallback
download is returned as the error); any other failing status is returned
immediately; on a successful download, `PrepareComputeBinary` grants
execute permission.  Returns the call result together with the trace of
performed steps. -/
def DownloadLatestComputeBinary (version : String) (o : InstallOracle) :
    Except String Unit × List InstallEvent :=
  if o.firstDownload.failed then
    if o.firstDownload.status == 404 then
      match o.prevTag with
      | .error e => (.error e, [.download version, .resolvePreviousStable])
      | .ok prev =>
        if o.secondDownload.failed then
          (.error ("bad status: " ++ toString o.secondDownload.status),
           [.download version, .resolvePreviousStable, .download prev])
        else if o.chmodOk then
          (.ok (), [.download version, .resolvePreviousStable,
            .download prev, .grantExec])
        else
          (.error "coudln't give exec privileges to the dkn-compute binary",
           [.download version, .resolvePreviousStable, .download prev,
            .grantExec])
    else
      (.error ("bad status: " ++ toString o.firstDownload.status),
       [.download version])
  else if o.chmodOk then
    (.ok (), [.download version, .grantExec])
  else
    (.error "coudln't give exec privileges to the dkn-compute binary",
     [.download version, .grantExec])

/-- Embeds the recording step of `main.go` lines 255-275: when
`DownloadLatestComputeBinary` returns a nil error, `main` sets
`envvars[DKN_COMPUTE_VERSION]` to the version it requested (the resolved
`computeVersion`); on error the launcher exits and nothing is recorded. -/
def recordedVersionAfterInstall (requested : String)
    (installResult : Except String Unit) : Option String :=
  match installResult with
  | .ok _ => some requested
  | .error _ => none

/-- **C7.** On a 404 of the requested version's download the installer
falls back exactly once — it resolves previous-stable and downloads that
tag, performing exactly two downloads — and succeeds when the fallback
download and the chmod succeed; a failing status other than 404 is
returned after the single original download with no retry; and a failure
of the fallback download itself is returned with no further retry. -/
theorem install_fallback_behavior (v prev : String) (o : InstallOracle)
    (h404 : o.firstDownload.failed = true)
    (hstatus : o.firstDownload.status = 404)
    (hprev : o.prevTag = .ok prev)
    (o2 : InstallOracle)
    (h2fail : o2.firstDownload.failed = true)
    (h2status : o2.firstDownload.status ≠ 404) :
    ((o.secondDownload.failed = false → o.chmodOk = true →
        DownloadLatestComputeBinary v o =
          (.ok (), [.download v, .resolvePreviousStable, .download prev,
            .grantExec]))
      ∧ (o.secondDownload.failed = true →
          DownloadLatestComputeBinary v o =
            (.error ("bad status: " ++ toString o.secondDownload.status),
             [.download v, .resolvePreviousStable, .download prev])))
    ∧ DownloadLatestComputeBinary v o2 =
        (.error ("bad status: " ++ toString o2.firstDownload.status),
         [.download v]) := by
  refine ⟨⟨?_, ?_⟩, ?_⟩
  · intro hsec hchmod
    simp [DownloadLatestComputeBinary, h404, hstatus, hprev, hsec, hchmod]
  · intro hsec
    simp [DownloadLatestComputeBinary, h404, hstatus, hprev, hsec]
  · have hb : (o2.firstDownload.status == 404) = false := by
      simpa using h2status
    simp [DownloadLatestComputeBinary, h2fail, hb]

/-- A 404 on the requested version followed by a successful fallback
download of the previous-stable tag. -/
def installOracleA : InstallOracle :=
  ⟨⟨404, true⟩, .ok "v0.2.4", ⟨200, false⟩, true⟩

/-- A plain 500 failure of the requested version's download. -/
def installOracleB : InstallOracle :=
  ⟨⟨500, true⟩, .ok "v0.2.4", ⟨200, false⟩, true⟩

/-- Witness for `install_fallback_behavior` at concrete oracles. -/
theorem install_fallback_behavior_witness :
    ((installOracleA.secondDownload.failed = false →
        installOracleA.chmodOk = true →
        DownloadLatestComputeBinary "v0.2.5" installOracleA =
          (.ok (), [.download "v0.2.5", .resolvePreviousStable,
            .download "v0.2.4", .grantExec]))
      ∧ (installOracleA.secondDownload.failed = true →
          DownloadLatestComputeBinary "v0.2.5" installOracleA =
            (.error ("bad status: " ++
              toString installOracleA.secondDownload.status),
             [.download "v0.2.5", .resolvePreviousStable,
              .download "v0.2.4"])))
    ∧ DownloadLatestComputeBinary "v0.2.5" installOracleB =
        (.error ("bad status: " ++
          toString installOracleB.firstDownload.status),
         [.download "v0.2.5"]) :=
  install_fallback_behavior "v0.2.5" "v0.2.4" installOracleA rfl rfl rfl
    installOracleB rfl (by decide)

/-- **C4 (code bug).** In the 404-fallback scenario — the requested
`v2.0.0` asset answers 404, previous-stable resolves to `v1.9.0`, and that
download succeeds — the installer's last download is `v1.9.0`, yet
`DownloadLatestComputeBinary` only returns an error value, so `main.go`
records the originally requested `v2.0.0` as `DKN_COMPUTE_VERSION`: the
recorded version is not the version that was actually downloaded. -/
theorem recorded_version_mismatch :
    (DownloadLatestComputeBinary "v2.0.0"
        ⟨⟨404, true⟩, .ok "v1.9.0", ⟨200, false⟩, true⟩).1 = .ok ()
    ∧ (DownloadLatestComputeBinary "v2.0.0"
        ⟨⟨404, true⟩, .ok "v1.9.0", ⟨200, false⟩, true⟩).2.contains
        (.download "v1.9.0") = true
    ∧ recordedVersionAfterInstall "v2.0.0"
        (DownloadLatestComputeBinary "v2.0.0"
          ⟨⟨404, true⟩, .ok "v1.9.0", ⟨200, false⟩, true⟩).1 =
        some "v2.0.0"
    ∧ recordedVersionAfterInstall "v2.0.0"
        (DownloadLatestComputeBinary "v2.0.0"
          ⟨⟨404, true⟩, .ok "v1.9.0", ⟨200, false⟩, true⟩).1 ≠
        some "v1.9.0" := by
  refine ⟨rfl, rfl, rfl, ?_⟩
  intro h
  have hs := Option.some.inj h
  exact absurd hs (by decide)

/-! ## Interactive model picker (src/utils/cmd.go lines 143-229) -/

/-- Digit accumulation of Go's `strconv.Atoi`: consume decimal digits,
failing on any other character. -/
def parseDigitsAux : Str → Nat → Option Nat
  | [], acc => some acc
  | c :: cs, acc =>
    if c.isDigit then parseDigitsAux cs (acc * 10 + (c.toNat - '0'.toNat))
    else none

/-- Non-empty digit run of `strconv.Atoi`. -/
def parseDigits : Str → Option Nat
  | [] => none
  | c :: cs =>
    if c.isDigit then parseDigitsAux cs (c.toNat - '0'.toNat) else none

/-- Model of Go's `strconv.Atoi` as used by `PickModels`
(src/utils/cmd.go line 192): an optional sign followed by at least one
decimal digit; anything else is an error (`none`). -/
def atoi : Str → Option Int
  | [] => none
  | '+' :: rest => (parseDigits rest).map (fun n => (n : Int))
  | '-' :: rest => (parseDigits rest).map (fun n => -(n : Int))
  | s => (parseDigits s).map (fun n => (n : Int))

/-- Positional indexing into a model catalog, mirroring Go's
`models[idx]`; out-of-range indices (never reached under the range guards
of `PickModels`) give the empty name. -/
def nth : List Str → Nat → Str
  | [], _ => []
  | x :: _, 0 => x
  | _ :: xs, n + 1 => nth xs n

/-- The mutable state of the selection loop of `PickModels`
(src/utils/cmd.go lines 183-185): `picked_models_map`, the accumulated
`picked_models_str`, and `invalid_selections`. -/
structure PickState where
  picked : List Int
  pickedStr : Str
  invalid : List Str

/-- Embeds one iteration of the selection loop of `PickModels`
(src/utils/cmd.go lines 186-224): skip entries already marked invalid and
empty entries; parse the entry as an integer (failures are marked
invalid); dispatch on the three id ranges (OpenAI, then Gemini, then
Ollama), appending `,name` for a not-yet-picked id; out-of-range ids are
marked invalid. -/
def pickStep (o g l : List Str) (st : PickState) (i : Str) : PickState :=
  if st.invalid.contains i || i == [] then st
  else
    match atoi i with
    | none => { st with invalid := i :: st.invalid }
    | some id =>
      if 0 < id ∧ id ≤ (o.length : Int) then
        if st.picked.contains id then st
        else
          { st with picked := id :: st.picked, pickedStr := st.pickedStr ++ ',' :: nth o (id.toNat - 1) }
      else if (o.length : Int) < id ∧
          id ≤ (g.length : Int) + (o.length : Int) then
        if st.picked.contains id then st
        else
          { st with picked := id :: st.picked, pickedStr := st.pickedStr ++ ',' :: nth g (id.toNat - o.length - 1) }
      else if (o.length : Int) + (g.length : Int) < id ∧
          id ≤ (l.length : Int) + (g.length : Int) + (o.length : Int) then
        if st.picked.contains id then st
        else
          { st with picked := id :: st.picked, pickedStr := st.pickedStr ++ ',' :: nth l (id.toNat - g.length - o.length - 1) }
      else { st with invalid := i :: st.invalid }

/-- Embeds `PickModels` (src/utils/cmd.go lines 143-229) from the point
where the user's reply is in hand: all spaces are removed
(`strings.ReplaceAll`), the result is split on commas, and the selection
loop runs from the empty state; the accumulated `picked_models_str` is
returned. -/
def PickModels (o g l : List Str) (input : Str) : Str :=
  let cleaned := input.filter (fun c => c != ' ')
  let tokens := splitOnChar ',' cleaned
  (tokens.foldl (pickStep o g l) ⟨[], [], []⟩).pickedStr

/-- A token's id when the token is a well-formed selection: it parses as
an integer that lies in the combined catalog range. -/
def validTokenId (total : Nat) (t : Str) : Option Int :=
  match atoi t with
  | none => none
  | some id => if 0 < id ∧ id ≤ (total : Int) then some id else none

/-- The ids the selection loop accepts, in order of first occurrence,
given the ids already picked. -/
def newIds (total : Nat) : List Int → List Str → List Int
  | _, [] => []
  | seen, t :: ts =>
    match validTokenId total t with
    | none => newIds total seen ts
    | some id =>
      if seen.contains id then newIds total seen ts
      else id :: newIds total (id :: seen) ts

theorem nth_append_left (a b : List Str) (n : Nat) (h : n < a.length) :
    nth (a ++ b) n = nth a n := by
  induction a generalizing n with
  | nil => simp at h
  | cons x xs ih =>
    cases n with
    | zero => rfl
    | succ m =>
      simp only [List.length_cons] at h
      simpa [nth] using ih m (by omega)

theorem nth_append_right (a b : List Str) (n : Nat) (h : a.length ≤ n) :
    nth (a ++ b) n = nth b (n - a.length) := by
  induction a generalizing n with
  | nil => simp [nth]
  | cons x xs ih =>
    cases n with
    | zero => simp at h
    | succ m =>
      simp only [List.length_cons] at h
      have := ih m (by omega)
      simpa [nth, Nat.succ_sub_succ] using this

theorem nth_mem (a : List Str) (n : Nat) (h : n < a.length) :
    nth a n ∈ a := by
  induction a generalizing n with
  | nil => simp at h
  | cons x xs ih =>
    cases n with
    | zero => simp [nth]
    | succ m =>
      simp only [List.length_cons] at h
      exact List.mem_cons_of_mem x (ih m (by omega))

theorem nth_inj (a : List Str) (hnd : a.Nodup) (n m : Nat)
    (hn : n < a.length) (hm : m < a.length) (h : nth a n = nth a m) :
    n = m := by
  induction a generalizing n m with
  | nil => simp at hn
  | cons x xs ih =>
    rw [List.nodup_cons] at hnd
    cases n with
    | zero =>
      cases m with
      | zero => rfl
      | succ m2 =>
        simp only [List.length_cons] at hm
        exfalso
        apply hnd.1
        rw [show nth (x :: xs) 0 = x from rfl] at h
        rw [show nth (x :: xs) (m2 + 1) = nth xs m2 from rfl] at h
        rw [h]
        exact nth_mem xs m2 (by omega)
    | succ n2 =>
      cases m with
      | zero =>
        simp only [List.length_cons] at hn
        exfalso
        apply hnd.1
        rw [show nth (x :: xs) (n2 + 1) = nth xs n2 from rfl] at h
        rw [show nth (x :: xs) 0 = x from rfl] at h
        rw [← h]
        exact nth_mem xs n2 (by omega)
      | succ m2 =>
        simp only [List.length_cons] at hn hm
        have := ih hnd.2 n2 m2 (by omega) (by omega) (by simpa [nth] using h)
        omega

theorem validTokenId_none_of_atoi_none (total : Nat) (t : Str)
    (h : atoi t = none) : validTokenId total t = none := by
  simp [validTokenId, h]

theorem pickFold (o g l : List Str) (ts : List Str) (st : PickState)
    (hinv : ∀ t ∈ st.invalid,
      validTokenId (o.length + g.length + l.length) t = none) :
    (ts.foldl (pickStep o g l) st).pickedStr =
      st.pickedStr ++
        ((newIds (o.length + g.length + l.length) st.picked ts).map
          (fun i => ',' :: nth (o ++ g ++ l) (i.toNat - 1))).flatten := by
  induction ts generalizing st with
  | nil => simp [newIds]
  | cons t rest ih =>
    rw [List.foldl_cons]
    by_cases hmem : t ∈ st.invalid
    · have hnone : validTokenId (o.length + g.length + l.length) t = none :=
        hinv t hmem
      have hstep : pickStep o g l st t = st := by
        simp [pickStep, hmem]
      rw [hstep, ih st hinv]
      simp [newIds, hnone]
    · by_cases hemp : t = []
      · subst hemp
        have hstep : pickStep o g l st [] = st := by
          simp [pickStep, hmem]
        have hnone :
            validTokenId (o.length + g.length + l.length) [] = none := rfl
        rw [hstep, ih st hinv]
        simp [newIds, hnone]
      · cases hat : atoi t with
        | none =>
          have hnone :
              validTokenId (o.length + g.length + l.length) t = none :=
            validTokenId_none_of_atoi_none _ t hat
          have hstep : pickStep o g l st t =
              { st with invalid := t :: st.invalid } := by
            simp [pickStep, hmem, hemp, hat]
          rw [hstep]
          have hinv2 : ∀ u ∈ t :: st.invalid,
              validTokenId (o.length + g.length + l.length) u = none := by
            intro u hu
            rcases List.mem_cons.mp hu with h1 | h2
            · subst h1; exact hnone
            · exact hinv u h2
          rw [ih _ hinv2]
          simp [newIds, hnone]
        | some id =>
          by_cases hrange :
              0 < id ∧ id ≤ ((o.length + g.length + l.length : Nat) : Int)
          · have hvalid :
                validTokenId (o.length + g.length + l.length) t
                  = some id := by
              simp only [validTokenId, hat]
              rw [if_pos hrange]
            by_cases hpicked : id ∈ st.picked
            · have hnew :
                  newIds (o.length + g.length + l.length) st.picked
                    (t :: rest) =
                  newIds (o.length + g.length + l.length) st.picked
                    rest := by
                simp [newIds, hvalid, hpicked]
              have hstep : pickStep o g l st t = st := by
                obtain ⟨ha, hb⟩ := hrange
                by_cases h1 : 0 < id ∧ id ≤ (o.length : Int)
                · simp [pickStep, hmem, hemp, hat, h1, hpicked]
                · by_cases h2 : (o.length : Int) < id ∧
                      id ≤ (g.length : Int) + (o.length : Int)
                  · simp [pickStep, hmem, hemp, hat, h1, h2, hpicked]
                  · have h3 : (o.length : Int) + (g.length : Int) < id ∧
                        id ≤ (l.length : Int) + (g.length : Int) +
                          (o.length : Int) := by omega
                    simp [pickStep, hmem, hemp, hat, h1, h2, h3, hpicked]
              rw [hstep, ih st hinv, hnew]
            · have hnew :
                  newIds (o.length + g.length + l.length) st.picked
                    (t :: rest) =
                  id :: newIds (o.length + g.length + l.length)
                    (id :: st.picked) rest := by
                simp [newIds, hvalid, hpicked]
              have hstep : pickStep o g l st t =
                  ⟨id :: st.picked,
                   st.pickedStr ++ ',' :: nth (o ++ g ++ l) (id.toNat - 1),
                   st.invalid⟩ := by
                obtain ⟨ha, hb⟩ := hrange
                by_cases h1 : 0 < id ∧ id ≤ (o.length : Int)
                · have hidx : id.toNat - 1 < o.length := by
                    obtain ⟨hc, hd⟩ := h1
                    omega
                  have hname : nth (o ++ (g ++ l)) (id.toNat - 1) =
                      nth o (id.toNat - 1) :=
                    nth_append_left o (g ++ l) _ hidx
                  simp [pickStep, hmem, hemp, hat, h1, hpicked, hname]
                · by_cases h2 : (o.length : Int) < id ∧
                      id ≤ (g.length : Int) + (o.length : Int)
                  · have hleo : o.length ≤ id.toNat - 1 := by
                      obtain ⟨hc, hd⟩ := h2
                      omega
                    have hidxg : id.toNat - 1 - o.length < g.length := by
                      obtain ⟨hc, hd⟩ := h2
                      omega
                    have hname : nth (o ++ (g ++ l)) (id.toNat - 1) =
                        nth g (id.toNat - o.length - 1) := by
                      rw [nth_append_right o (g ++ l) _ hleo,
                        nth_append_left g l _ hidxg]
                      congr 1
                      obtain ⟨hc, hd⟩ := h2
                      omega
                    simp [pickStep, hmem, hemp, hat, h1, h2, hpicked, hname]
                  · have h3 : (o.length : Int) + (g.length : Int) < id ∧
                        id ≤ (l.length : Int) + (g.length : Int) +
                          (o.length : Int) := by omega
                    have hleo : o.length ≤ id.toNat - 1 := by
                      obtain ⟨hc, hd⟩ := h3
                      omega
                    have hleg : g.length ≤ id.toNat - 1 - o.length := by
                      obtain ⟨hc, hd⟩ := h3
                      omega
                    have hname : nth (o ++ (g ++ l)) (id.toNat - 1) =
                        nth l (id.toNat - g.length - o.length - 1) := by
                      rw [nth_append_right o (g ++ l) _ hleo,
                        nth_append_right g l _ hleg]
                      congr 1
                      obtain ⟨hc, hd⟩ := h3
                      omega
                    simp [pickStep, hmem, hemp, hat, h1, h2, h3, hpicked,
                      hname]
              rw [hstep]
              rw [ih ⟨id :: st.picked,
                st.pickedStr ++ ',' :: nth (o ++ g ++ l) (id.toNat - 1),
                st.invalid⟩ hinv]
              rw [hnew]
              simp [List.append_assoc]
          · have hnone :
                validTokenId (o.length + g.length + l.length) t = none := by
              simp only [validTokenId, hat]
              rw [if_neg hrange]
            have hn1 : ¬ (0 < id ∧ id ≤ (o.length : Int)) := by omega
            have hn2 : ¬ ((o.length : Int) < id ∧
                id ≤ (g.length : Int) + (o.length : Int)) := by omega
            have hn3 : ¬ ((o.length : Int) + (g.length : Int) < id ∧
                id ≤ (l.length : Int) + (g.length : Int) +
                  (o.length : Int)) := by omega
            have hstep : pickStep o g l st t =
                { st with invalid := t :: st.invalid } := by
              simp [pickStep, hmem, hemp, hat, hn1, hn2, hn3]
            rw [hstep]
            have hinv2 : ∀ u ∈ t :: st.invalid,
                validTokenId (o.length + g.length + l.length) u = none := by
              intro u hu
              rcases List.mem_cons.mp hu with hu1 | hu2
              · subst hu1; exact hnone
              · exact hinv u hu2
            rw [ih _ hinv2]
            simp [newIds, hnone]

theorem validTokenId_range (total : Nat) (t : Str) (id : Int)
    (hv : validTokenId total t = some id) :
    0 < id ∧ id ≤ (total : Int) := by
  unfold validTokenId at hv
  cases hat : atoi t with
  | none => rw [hat] at hv; simp at hv
  | some j =>
    rw [hat] at hv
    change (if 0 < j ∧ j ≤ (total : Int) then some j else none)
      = some id at hv
    by_cases hc : 0 < j ∧ j ≤ (total : Int)
    · rw [if_pos hc] at hv
      have : j = id := Option.some.inj hv
      subst this
      exact hc
    · rw [if_neg hc] at hv
      simp at hv

theorem newIds_spec (total : Nat) (ts : List Str) (seen : List Int) :
    (newIds total seen ts).Nodup
    ∧ ∀ i ∈ newIds total seen ts,
        (0 < i ∧ i ≤ (total : Int)) ∧ i ∉ seen := by
  induction ts generalizing seen with
  | nil => simp [newIds]
  | cons t rest ih =>
    cases hv : validTokenId total t with
    | none => simpa [newIds, hv] using ih seen
    | some id =>
      by_cases hseen : id ∈ seen
      · simpa [newIds, hv, hseen] using ih seen
      · obtain ⟨ihn, ihm⟩ := ih (id :: seen)
        have hnew : newIds total seen (t :: rest) =
            id :: newIds total (id :: seen) rest := by
          simp [newIds, hv, hseen]
        rw [hnew]
        constructor
        · rw [List.nodup_cons]
          refine ⟨?_, ihn⟩
          intro hcontra
          exact (ihm id hcontra).2 (List.mem_cons_self id seen)
        · intro i hi
          rcases List.mem_cons.mp hi with h1 | h2
          · subst h1
            exact ⟨validTokenId_range total t i hv, hseen⟩
          · obtain ⟨hr, hns⟩ := ihm i h2
            exact ⟨hr, fun hc => hns (List.mem_cons_of_mem id hc)⟩

/-- The ids the selection loop of `PickModels` accepts for a given input:
in-range integer tokens in order of first occurrence. -/
def pickedIds (o g l : List Str) (input : Str) : List Int :=
  newIds (o.length + g.length + l.length) []
    (splitOnChar ',' (input.filter (fun c => c != ' ')))

/-- **C10.** For every user selection input, `PickModels` returns exactly
the concatenation of `,name` blocks over the distinct in-range ids of the
input, in order of first occurrence; consequently the returned string is
empty or begins with a comma, each picked id is in the catalog range, and —
when the catalog names are pairwise distinct — each available model name
occurs at most once even if an id is repeated in the input.  Non-integer,
out-of-range and empty entries contribute nothing (the function is total:
they are skipped, not errors). -/
theorem pickmodels_output_props (o g l : List Str) (input : Str)
    (hnodup : (o ++ g ++ l).Nodup) :
    PickModels o g l input =
      ((pickedIds o g l input).map
        (fun i => ',' :: nth (o ++ g ++ l) (i.toNat - 1))).flatten
    ∧ (pickedIds o g l input).Nodup
    ∧ (∀ i ∈ pickedIds o g l input,
        0 < i ∧ i ≤ ((o.length + g.length + l.length : Nat) : Int))
    ∧ ((pickedIds o g l input).map
        (fun i => nth (o ++ g ++ l) (i.toNat - 1))).Nodup
    ∧ (PickModels o g l input = []
        ∨ ∃ r, PickModels o g l input = ',' :: r) := by
  have hmainraw := pickFold o g l
    (splitOnChar ',' (input.filter (fun c => c != ' ')))
    ⟨[], [], []⟩ (by intro u hu; simp at hu)
  have hmain : PickModels o g l input =
      ((pickedIds o g l input).map
        (fun i => ',' :: nth (o ++ g ++ l) (i.toNat - 1))).flatten := by
    unfold PickModels pickedIds
    simpa using hmainraw
  obtain ⟨hnd, hmem⟩ := newIds_spec (o.length + g.length + l.length)
    (splitOnChar ',' (input.filter (fun c => c != ' '))) []
  have hndp : (pickedIds o g l input).Nodup := hnd
  have hmemp : ∀ i ∈ pickedIds o g l input,
      0 < i ∧ i ≤ ((o.length + g.length + l.length : Nat) : Int) :=
    fun i hi => (hmem i hi).1
  refine ⟨hmain, hndp, hmemp, ?_, ?_⟩
  · apply List.Nodup.map_on ?_ hndp
    intro x hx y hy heq
    obtain ⟨hx1, hx2⟩ := hmemp x hx
    obtain ⟨hy1, hy2⟩ := hmemp y hy
    have hlen : (o ++ g ++ l).length = o.length + g.length + l.length := by
      simp only [List.length_append]
    have hxb : x.toNat - 1 < (o ++ g ++ l).length := by
      rw [hlen]; omega
    have hyb : y.toNat - 1 < (o ++ g ++ l).length := by
      rw [hlen]; omega
    have := nth_inj (o ++ g ++ l) hnodup _ _ hxb hyb heq
    omega
  · rw [hmain]
    cases hids : pickedIds o g l input with
    | nil => left; rfl
    | cons i rest =>
      right
      exact ⟨nth (o ++ g ++ l) (i.toNat - 1) ++
        ((rest.map (fun j => ',' :: nth (o ++ g ++ l) (j.toNat - 1)))).flatten,
        by simp⟩

/-- Witness for `pickmodels_output_props`: two OpenAI names, one Gemini
name and one Ollama name, with an input containing a duplicate id, a
non-integer entry, an out-of-range entry and an empty entry. -/
theorem pickmodels_output_props_witness :
    PickModels [['a'], ['b']] [['c']] [['d']] ("1,2,x,9,1,,3".toList) =
      ((pickedIds [['a'], ['b']] [['c']] [['d']]
          ("1,2,x,9,1,,3".toList)).map
        (fun i => ',' :: nth ([['a'], ['b']] ++ [['c']] ++ [['d']])
          (i.toNat - 1))).flatten
    ∧ (pickedIds [['a'], ['b']] [['c']] [['d']]
        ("1,2,x,9,1,,3".toList)).Nodup
    ∧ (∀ i ∈ pickedIds [['a'], ['b']] [['c']] [['d']]
          ("1,2,x,9,1,,3".toList), 0 < i ∧ i ≤ ((2 + 1 + 1 : Nat) : Int))
    ∧ ((pickedIds [['a'], ['b']] [['c']] [['d']]
          ("1,2,x,9,1,,3".toList)).map
        (fun i => nth ([['a'], ['b']] ++ [['c']] ++ [['d']])
          (i.toNat - 1))).Nodup
    ∧ (PickModels [['a'], ['b']] [['c']] [['d']] ("1,2,x,9,1,,3".toList) = []
        ∨ ∃ r, PickModels [['a'], ['b']] [['c']] [['d']]
            ("1,2,x,9,1,,3".toList) = ',' :: r) :=
  pickmodels_output_props [['a'], ['b']] [['c']] [['d']]
    ("1,2,x,9,1,,3".toList) (by decide)
